import Mathlib

/-!
Formal model of the tgInlineCalc core (src/main.py): the price-aggregation
fetcher (`fetch_cbr_prices`, `get_binance_price`, `fetch_all_prices`) and the
expression evaluator (`evaluate_expression`).  Strings are modelled as
`List Char` / `String`, Python `Decimal` values by their exact rational value
(`ℚ`) with context operations rounding to 18 significant digits
(`getcontext().prec = 18`), and Python `float` by exactly representable
rationals with IEEE-754 binary64 round-to-nearest-even (`rnd64`), valid on the
normal, non-overflowing range that all inputs in this development inhabit.
The safety gate's character class models Python's Unicode `\d` in full (ASCII
digits plus category Nd, `ndRanges`); the `\s`/`\w` classes of the
substitution and rewrite regexes and the number syntax of the evaluator are
the ASCII readings, which agree with Python on every input a theorem below
rests on — where a non-ASCII digit reaches the evaluator, both the model and
the program classify it as a syntax error, which is all `claim_C6`'s
disjunctive conclusion uses.
-/

set_option maxRecDepth 10000

namespace TgCalc

attribute [local semireducible] Rat.mul Rat.inv Rat.add Rat.sub Rat.ofScientific

/-! Character classes.  `allowedCh` is the character class of the safety gate
`^[ \d\.\+\-\*\/\(\)]+$` at src/main.py:173, where `\d` is Python's Unicode
reading: the ASCII digits together with every other character of Unicode
category Nd (decimal digit). -/

def isDigitCh (c : Char) : Bool := 48 ≤ c.toNat && c.toNat ≤ 57

def isWsCh (c : Char) : Bool :=
  c = ' ' || c = '\t' || c = '\n' || c = '\r' || c = '\x0b' || c = '\x0c'

def isAlphaCh (c : Char) : Bool :=
  (65 ≤ c.toNat && c.toNat ≤ 90) || (97 ≤ c.toNat && c.toNat ≤ 122)

def isWordCh (c : Char) : Bool := isDigitCh c || isAlphaCh c || c = '_'

/-- The code points of Unicode category Nd above the ASCII range, as closed
intervals: the non-ASCII characters matched by `\d` in a Python `str`
pattern. -/
def ndRanges : List (ℕ × ℕ) :=
  [(0x660, 0x669), (0x6F0, 0x6F9), (0x7C0, 0x7C9), (0x966, 0x96F),
   (0x9E6, 0x9EF), (0xA66, 0xA6F), (0xAE6, 0xAEF), (0xB66, 0xB6F),
   (0xBE6, 0xBEF), (0xC66, 0xC6F), (0xCE6, 0xCEF), (0xD66, 0xD6F),
   (0xDE6, 0xDEF), (0xE50, 0xE59), (0xED0, 0xED9), (0xF20, 0xF29),
   (0x1040, 0x1049), (0x1090, 0x1099), (0x17E0, 0x17E9), (0x1810, 0x1819),
   (0x1946, 0x194F), (0x19D0, 0x19D9), (0x1A80, 0x1A89), (0x1A90, 0x1A99),
   (0x1B50, 0x1B59), (0x1BB0, 0x1BB9), (0x1C40, 0x1C49), (0x1C50, 0x1C59),
   (0xA620, 0xA629), (0xA8D0, 0xA8D9), (0xA900, 0xA909), (0xA9D0, 0xA9D9),
   (0xA9F0, 0xA9F9), (0xAA50, 0xAA59), (0xABF0, 0xABF9), (0xFF10, 0xFF19),
   (0x104A0, 0x104A9), (0x10D30, 0x10D39), (0x11066, 0x1106F),
   (0x110F0, 0x110F9), (0x11136, 0x1113F), (0x111D0, 0x111D9),
   (0x112F0, 0x112F9), (0x11450, 0x11459), (0x114D0, 0x114D9),
   (0x11650, 0x11659), (0x116C0, 0x116C9), (0x11730, 0x11739),
   (0x118E0, 0x118E9), (0x11950, 0x11959), (0x11C50, 0x11C59),
   (0x11D50, 0x11D59), (0x11DA0, 0x11DA9), (0x16A60, 0x16A69),
   (0x16AC0, 0x16AC9), (0x16B50, 0x16B59), (0x1D7CE, 0x1D7FF),
   (0x1E140, 0x1E149), (0x1E2F0, 0x1E2F9), (0x1E950, 0x1E959),
   (0x1FBF0, 0x1FBF9)]

/-- A non-ASCII Unicode decimal digit: matched by `\d`, but outside the
ASCII set the spec's character list names. -/
def ndExtraDigit (c : Char) : Bool :=
  127 < c.toNat && ndRanges.any fun r => r.1 ≤ c.toNat && c.toNat ≤ r.2

/-- The ASCII reading of the safety gate's set — the set the spec writes out
as {space, digit, '.', '+', '-', '*', '/', '(', ')'}. -/
def asciiAllowedCh (c : Char) : Bool :=
  c = ' ' || isDigitCh c || c = '.' || c = '+' || c = '-' ||
  c = '*' || c = '/' || c = '(' || c = ')'

/-- The character class of the gate regex itself: Python's `\d` also matches
every Unicode decimal digit, so the real class is the ASCII set plus the
non-ASCII Nd characters. -/
def allowedCh (c : Char) : Bool := asciiAllowedCh c || ndExtraDigit c

/-! Decimal digit strings. -/

def digitCh (d : ℕ) : Char := Char.ofNat (48 + d % 10)

/-- Base-10 digits of `n`, least significant first; the first argument is
fuel, always called with fuel `n` which dominates the digit count. -/
def natDigsGo : ℕ → ℕ → List Char
  | 0, _ => []
  | _ + 1, 0 => []
  | f + 1, n => digitCh (n % 10) :: natDigsGo f (n / 10)

/-- Base-10 digits of `n`, most significant first (empty for `0`). -/
def natDigs (n : ℕ) : List Char := (natDigsGo n n).reverse

/-- Decimal rendering of a natural number (`"0"` for zero). -/
def natStr (n : ℕ) : List Char := if n = 0 then ['0'] else natDigs n

/-- Number of base-`b` digits of `n` (`0` for `n = 0`); first argument fuel. -/
def lenBaseGo (b : ℕ) : ℕ → ℕ → ℕ
  | 0, _ => 0
  | _ + 1, 0 => 0
  | f + 1, n => lenBaseGo b f (n / b) + 1

def numLen10 (n : ℕ) : ℕ := lenBaseGo 10 n n

def numLen2 (n : ℕ) : ℕ := lenBaseGo 2 n n

/-- Smallest `k ≤ 64` such that `a * 10^k` is an integer (`0` if none). -/
def findDecK (a : ℚ) : ℕ :=
  (((List.range 65).find? fun k => (a * (10 : ℚ) ^ k).den = 1).getD 0)

/-- Models Python `str(price)` for the `Decimal` values held in the price
table.  Since `Decimal` is modelled by its exact rational value, this renders
the canonical plain fixed-point form (sign, integer digits, optional fraction
digits); that is what `str` produces for every value substituted in the
concrete theorems below, and the universally quantified theorems use only the
fact, proved in `decStr_mem`, that the output never contains a letter. -/
def decStr (q : ℚ) : List Char :=
  let a : ℚ := |q|
  let k := findDecK a
  let m := (a * (10 : ℚ) ^ k).num.toNat
  let body :=
    if k = 0 then natStr m
    else
      natStr (m / 10 ^ k) ++
        '.' :: (List.replicate (k - (natDigs (m % 10 ^ k)).length) '0' ++
          natDigs (m % 10 ^ k))
  if q < 0 then '-' :: body else body

/-! Whole-word token substitution: `re.sub(r'\b' + key + r'\b', rep, s)`
(src/main.py:168).  Faithful for keys made of word characters containing no
regex metacharacters, which every rate token is; `\b` holds at a position
exactly when one neighbour is a word character and the other is absent or not
a word character, and for a word-character key this reduces to the neighbour
tests below. -/

def leadsWith : List Char → List Char → Bool
  | [], _ => true
  | _ :: _, [] => false
  | a :: as, b :: bs => (a = b) && leadsWith as bs

/-- Word-boundary test against the character left of the current position
(`none` at the start of the string). -/
def boundaryB (prev : Option Char) : Bool :=
  match prev with
  | none => true
  | some p => !isWordCh p

/-- Word-boundary test at the position after the candidate match. -/
def boundaryAfter (s : List Char) : Bool :=
  match s with
  | [] => true
  | d :: _ => !isWordCh d

/-- Does `\b<key>\b` match at the start of `s`, where `prev` is the character
immediately before `s` in the full string? -/
def matchAt (key : List Char) (prev : Option Char) (s : List Char) : Bool :=
  !key.isEmpty && leadsWith key s && boundaryB prev && boundaryAfter (s.drop key.length)

/-- The scanning loop of `re.sub`: leftmost, non-overlapping matches, the
replacement text is not rescanned.  `skip` counts characters of a match still
to be consumed. -/
def substGo (key rep : List Char) : Option Char → ℕ → List Char → List Char
  | _, _, [] => []
  | prev, 0, c :: rest =>
    if matchAt key prev (c :: rest) then
      rep ++ substGo key rep key.getLast? (key.length - 1) rest
    else
      c :: substGo key rep (some c) 0 rest
  | prev, k + 1, _ :: rest => substGo key rep prev k rest

/-- `re.sub(r'\b' + key + r'\b', rep, s)` for a word-character key. -/
def substTokenWB (key rep s : List Char) : List Char := substGo key rep none 0 s

/-- Is there a whole-word occurrence of `key` anywhere in `s` (with `prev` the
character before `s`)?  Scans every position, mirroring `substGo`'s match
test. -/
def hasWWOcc (key : List Char) : Option Char → List Char → Bool
  | _, [] => false
  | prev, c :: rest => matchAt key prev (c :: rest) || hasWWOcc key (some c) rest

/-! Longest-first key ordering: `sorted(prices.keys(), key=len, reverse=True)`
(src/main.py:167).  Python's sort is stable and `reverse=True` preserves the
relative order of keys of equal length, exactly as insertion sort on the
reflexive "length at least" relation does. -/

def lenGE (a b : String) : Prop := b.length ≤ a.length

instance : DecidableRel lenGE := fun a b => Nat.decLe b.length a.length

instance : IsTotal String lenGE := ⟨fun a b => Nat.le_total b.length a.length⟩

instance : IsTrans String lenGE := ⟨fun _ _ _ hab hbc => Nat.le_trans hbc hab⟩

def sortKeysLenDesc (keys : List String) : List String := List.insertionSort lenGE keys

/-- Value of a key in the price table (tables in use never look up a missing
key; `0` is a dummy default). -/
def lookupPrice (prices : List (String × ℚ)) (k : String) : ℚ :=
  (List.lookup k prices).getD 0

/-- The substitution loop of `evaluate_expression` (src/main.py:167-168). -/
def substituteAll (prices : List (String × ℚ)) (s : String) : String :=
  (sortKeysLenDesc (prices.map Prod.fst)).foldl
    (fun e k => ⟨substTokenWB k.data (decStr (lookupPrice prices k)) e.data⟩) s

/-! Exact decimal and binary rounding.  `halfEvenZ` is round half to even,
the rounding mode of the default `decimal` context and of IEEE-754 binary64. -/

/-- Nearest integer, ties to even. -/
def halfEvenZ (q : ℚ) : ℤ :=
  let f := ⌊q⌋
  let r := q - (f : ℚ)
  if r < 1 / 2 then f else if 1 / 2 < r then f + 1 else if 2 ∣ f then f else f + 1

/-- `q * 10 ^ e` for an integer exponent. -/
def mulPow10 (e : ℤ) (q : ℚ) : ℚ :=
  if 0 ≤ e then q * (10 : ℚ) ^ e.toNat else q / (10 : ℚ) ^ (-e).toNat

/-- `q * 2 ^ e` for an integer exponent. -/
def mulPow2 (e : ℤ) (q : ℚ) : ℚ :=
  if 0 ≤ e then q * (2 : ℚ) ^ e.toNat else q / (2 : ℚ) ^ (-e).toNat

/-- `⌊log 10 q⌋` for positive `q`: the unique `z` with `10^z ≤ q < 10^(z+1)`,
computed from the digit lengths of numerator and denominator. -/
def qlog10 (q : ℚ) : ℤ :=
  let z0 : ℤ := (numLen10 q.num.natAbs : ℤ) - (numLen10 q.den : ℤ) - 1
  if mulPow10 (z0 + 1) 1 ≤ q then z0 + 1 else z0

/-- `⌊log 2 q⌋` for positive `q`, from the bit lengths of numerator and
denominator. -/
def qlog2 (q : ℚ) : ℤ :=
  let z0 : ℤ := (numLen2 q.num.natAbs : ℤ) - (numLen2 q.den : ℤ) - 1
  if mulPow2 (z0 + 1) 1 ≤ q then z0 + 1 else z0

/-- Round `q` to `p` significant decimal digits, half to even: the value of
every arithmetic result in a `decimal` context with `prec = p`
(src/main.py:29 sets `getcontext().prec = 18`). -/
def roundSig (p : ℕ) (q : ℚ) : ℚ :=
  if q = 0 then 0
  else
    let e : ℤ := qlog10 |q| - ((p : ℤ) - 1)
    (if q < 0 then -1 else 1) * (halfEvenZ (mulPow10 (-e) |q|) : ℚ) * mulPow10 e 1

/-- `Decimal` division under the 18-digit context, by value. -/
def decDiv (a b : ℚ) : ℚ := roundSig 18 (a / b)

/-- `Decimal` multiplication under the 18-digit context, by value. -/
def decMul (a b : ℚ) : ℚ := roundSig 18 (a * b)

/-- IEEE-754 binary64 round to nearest, ties to even, for values in the
normal, non-overflowing range (every float arising in this development is
such): the value `Python` stores for any arithmetic result. -/
def rnd64 (q : ℚ) : ℚ :=
  if q = 0 then 0
  else
    let e : ℤ := qlog2 |q| - 52
    (if q < 0 then -1 else 1) * (halfEvenZ (mulPow2 (-e) |q|) : ℚ) * mulPow2 e 1

/-! The price aggregator (src/main.py:88-155).  A sub-source outcome is what
the corresponding coroutine hands to `fetch_all_prices`:

* the currency feed: `none` models any exception inside `fetch_cbr_prices`
  before the parse loop (network failure, bad HTTP status, malformed XML) —
  the `except` clause returns `{}`; `some records` models a parsed XML
  document, each record carrying the 3-letter code, the `Value` text already
  normalized and read as an exact decimal, and the `Nominal`;
* each crypto ticker: `none` models a `get_binance_price` failure (it returns
  `None`), `some v` a response whose `price` field parses to the decimal `v`. -/

structure CbrRec where
  charCode : String
  value : ℚ
  nominal : ℚ

def watchedCode (c : String) : Option String :=
  if c = "USD" then some "ur"
  else if c = "CNY" then some "cr"
  else if c = "EUR" then some "er"
  else none

/-- Python dict assignment `d[k] = v` observed through `List.lookup` (the
most recent binding is found first). -/
def dinsert (k : String) (v : ℚ) (t : List (String × ℚ)) : List (String × ℚ) :=
  (k, v) :: t

/-- The parse loop of `fetch_cbr_prices`: `none` when a record raises
(`Decimal(value) / Decimal(nominal)` with a zero nominal), which the `except`
clause turns into `{}`. -/
def fetchCbrGo : List CbrRec → List (String × ℚ) → Option (List (String × ℚ))
  | [], acc => some acc
  | r :: rs, acc =>
    match watchedCode r.charCode with
    | some tok =>
      if r.nominal = 0 then none
      else fetchCbrGo rs (dinsert tok (decDiv r.value r.nominal) acc)
    | none => fetchCbrGo rs acc

/-- `fetch_cbr_prices` (src/main.py:88-109) as a function of its outcome. -/
def fetchCbrPrices : Option (List CbrRec) → List (String × ℚ)
  | none => []
  | some rs => (fetchCbrGo rs []).getD []

/-- The merge of the three gathered results (src/main.py:138-145): Python
truthiness drops an absent crypto result (`None`) and a zero price alike, and
`if cbr_prices:` is equivalent to an unconditional `update` by an empty or
non-empty dict. -/
def mergedPrimitives (cbr : List (String × ℚ)) (bnc eth : Option ℚ) :
    List (String × ℚ) :=
  let a1 := match bnc with
    | some v => if v = 0 then cbr else dinsert "bnc" v cbr
    | none => cbr
  match eth with
  | some v => if v = 0 then a1 else dinsert "eth" v a1
  | none => a1

def addOb (t : List (String × ℚ)) : List (String × ℚ) :=
  match List.lookup "bnc" t, List.lookup "ur" t with
  | some b, some u => dinsert "ob" (decMul b u) t
  | _, _ => t

def addOe (t : List (String × ℚ)) : List (String × ℚ) :=
  match List.lookup "eth" t, List.lookup "ur" t with
  | some v, some u => dinsert "oe" (decMul v u) t
  | _, _ => t

/-- `fetch_all_prices` (src/main.py:124-155) as a function of the three
sub-source outcomes already merged from `fetch_cbr_prices`.  The result is
`none` when the function raises: the derived-token division
`all_prices['er'] / all_prices['ur']` at line 149 raises `DivisionByZero`
(or `InvalidOperation` for 0/0) when the `ur` rate is zero, and
`fetch_all_prices` has no handler. -/
def fetchAllPrices (cbr : List (String × ℚ)) (bnc eth : Option ℚ) :
    Option (List (String × ℚ)) :=
  let t := mergedPrimitives cbr bnc eth
  match List.lookup "er" t, List.lookup "ur" t with
  | some e, some u =>
    if u = 0 then none
    else some (addOe (addOb (dinsert "eu" (decDiv e u) t)))
  | _, _ => some (addOe (addOb t))

/-! Percentage rewriting (src/main.py:170-171): the two substitutions

* `re.sub(r'(\(?\d[\d\.\s]*\)?)\s*\+\s*(\d+\.?\d*)\s*%', r'(\1 * (1 + \2 / 100))', e)`
* `re.sub(r'(\(?\d[\d\.\s]*\)?)\s*-\s*(\d+\.?\d*)\s*%', r'(\1 * (1 - \2 / 100))', e)`

via a small backtracking matcher with Python's leftmost, greedy-with-
backtracking priority order.  The pattern is a sequence of items, each a
single-character class used once, optionally, or starred; `\d+` appears
desugared as one mandatory class character followed by a star. -/

inductive ItemKind
  | one
  | optional
  | star

structure Item where
  kind : ItemKind
  cls : Char → Bool
  grp : ℕ

/-- Match a prefix of `s` against the items, returning per-item consumed
lengths.  Greedy with backtracking: an optional or starred item first tries to
consume, falling back to the shorter alternative only when the rest of the
pattern cannot match — regex NFA priority order.  The first argument is fuel;
every use supplies more than `s.length + items.length`, which dominates the
recursion depth since every step drops an item or a character. -/
def mtchItems : ℕ → List Item → List Char → Option (List ℕ)
  | 0, _, _ => none
  | _ + 1, [], _ => some []
  | f + 1, it :: its, s =>
    match it.kind with
    | .one =>
      match s with
      | c :: srest => if it.cls c then (mtchItems f its srest).map (1 :: ·) else none
      | [] => none
    | .optional =>
      match s with
      | c :: srest =>
        if it.cls c then
          match (mtchItems f its srest).map (1 :: ·) with
          | some r => some r
          | none => (mtchItems f its s).map (0 :: ·)
        else (mtchItems f its s).map (0 :: ·)
      | [] => (mtchItems f its []).map (0 :: ·)
    | .star =>
      match s with
      | c :: srest =>
        if it.cls c then
          match mtchItems f (it :: its) srest with
          | some (k :: r) => some ((k + 1) :: r)
          | some [] => none
          | none => (mtchItems f its s).map (0 :: ·)
        else (mtchItems f its s).map (0 :: ·)
      | [] => (mtchItems f its []).map (0 :: ·)

/-- Concatenated text captured by group `g`, from the per-item lengths. -/
def grpText : List Item → List ℕ → ℕ → List Char → List Char
  | it :: its, k :: ks, g, s =>
    (if it.grp = g then s.take k else []) ++ grpText its ks g (s.drop k)
  | _, _, _, _ => []

def cls1 (c : Char) : Bool := isDigitCh c || c = '.' || isWsCh c

/-- The percent pattern for operator `op` (`'+'` or `'-'`): group 1 is
`\(?\d[\d\.\s]*\)?`, group 2 is `\d+\.?\d*`. -/
def percentPat (op : Char) : List Item :=
  [⟨.optional, (· = '('), 1⟩, ⟨.one, isDigitCh, 1⟩, ⟨.star, cls1, 1⟩,
   ⟨.optional, (· = ')'), 1⟩,
   ⟨.star, isWsCh, 0⟩, ⟨.one, (· = op), 0⟩, ⟨.star, isWsCh, 0⟩,
   ⟨.one, isDigitCh, 2⟩, ⟨.star, isDigitCh, 2⟩, ⟨.optional, (· = '.'), 2⟩,
   ⟨.star, isDigitCh, 2⟩,
   ⟨.star, isWsCh, 0⟩, ⟨.one, (· = '%'), 0⟩]

/-- The replacement template `(\1 * (1 <op> \2 / 100))`. -/
def percentRepl (op : Char) (g1 g2 : List Char) : List Char :=
  '(' :: g1 ++ ' ' :: '*' :: ' ' :: '(' :: '1' :: ' ' :: op :: ' ' ::
    (g2 ++ ' ' :: '/' :: ' ' :: '1' :: '0' :: '0' :: ')' :: ')' :: [])

/-- The `re.sub` scan: leftmost matches, non-overlapping, the replacement is
not rescanned.  First argument fuel, supplied above the string length; every
match consumes at least the mandatory digit, operator and percent sign, so
the scan advances at every step. -/
def percentScan (op : Char) : ℕ → List Char → List Char
  | 0, s => s
  | _ + 1, [] => []
  | f + 1, c :: rest =>
    match mtchItems (rest.length + 15) (percentPat op) (c :: rest) with
    | some lens =>
      let l := lens.foldl (· + ·) 0
      if l = 0 then c :: percentScan op f rest
      else
        percentRepl op (grpText (percentPat op) lens 1 (c :: rest))
            (grpText (percentPat op) lens 2 (c :: rest)) ++
          percentScan op f ((c :: rest).drop l)
    | none => c :: percentScan op f rest

def percentSub (op : Char) (s : String) : String :=
  ⟨percentScan op (s.data.length + 1) s.data⟩

/-! The safety gate `re.match(r'^[ \d\.\+\-\*\/\(\)]+$', e)` (src/main.py:173-175).
`re.match` anchors at the start; the greedy class-plus consumes the maximal
allowed prefix, and `$` matches at the end of the string or just before a
newline that is its last character.  Backtracking cannot move the match end
anywhere else, so the test is: the maximal allowed prefix is nonempty and
reaches the end, or stops exactly one short of the end at a final newline. -/

def safeOK (s : List Char) : Bool :=
  let p := (s.takeWhile allowedCh).length
  decide (1 ≤ p) &&
    (decide (p = s.length) ||
      (decide (p + 1 = s.length) && decide (s.getLast? = some '\n')))

/-! The evaluation of the rewritten string, `eval(expression, {"__builtins__": {}}, {})`
(src/main.py:177): Python arithmetic over int and float.  The string is first
compiled (any failure is a `SyntaxError`) and then evaluated (where the only
possible failure is `ZeroDivisionError`).  The tokenizer skips blanks, and a
newline, which the safety gate admits only as the final character, where
Python's eval-mode grammar also accepts it. -/

inductive Tok
  | num (isFlt : Bool) (q : ℚ)
  | plusT
  | minusT
  | starT
  | slashT
  | lparenT
  | rparenT
deriving DecidableEq

/-- The characters the tokenizer can consume; anything else fails Python's
tokenizer inside an expression, raising `SyntaxError` (in particular every
non-ASCII decimal digit: Python number literals use ASCII digits only, and no
character of the gate's class can start an identifier). -/
def tokCh (c : Char) : Bool :=
  c = ' ' || c = '\n' || c = '+' || c = '-' || c = '*' || c = '/' ||
  c = '(' || c = ')' || isDigitCh c || c = '.'

def digitVal (c : Char) : ℕ := c.toNat - 48

def natOfDigits (ds : List Char) : ℕ := ds.foldl (fun a c => 10 * a + digitVal c) 0

/-- Numeric value of a literal with integer digits `ds` and fraction digits
`fs`. -/
def litVal (ds fs : List Char) : ℚ :=
  (natOfDigits ds : ℚ) + (natOfDigits fs : ℚ) / (10 : ℚ) ^ fs.length

/-- Tokenizer (first argument fuel, supplied above the string length; each
step consumes at least one character). -/
def tokenize : ℕ → List Char → Option (List Tok)
  | 0, _ => none
  | _ + 1, [] => some []
  | f + 1, c :: rest =>
    if c = ' ' || c = '\n' then tokenize f rest
    else if c = '+' then (tokenize f rest).map (Tok.plusT :: ·)
    else if c = '-' then (tokenize f rest).map (Tok.minusT :: ·)
    else if c = '*' then (tokenize f rest).map (Tok.starT :: ·)
    else if c = '/' then (tokenize f rest).map (Tok.slashT :: ·)
    else if c = '(' then (tokenize f rest).map (Tok.lparenT :: ·)
    else if c = ')' then (tokenize f rest).map (Tok.rparenT :: ·)
    else if isDigitCh c || c = '.' then
      let ds := (c :: rest).takeWhile isDigitCh
      match (c :: rest).drop ds.length with
      | '.' :: r2 =>
        let fs := r2.takeWhile isDigitCh
        if ds.length = 0 && fs.length = 0 then none
        else (tokenize f (r2.drop fs.length)).map (Tok.num true (litVal ds fs) :: ·)
      | _ => (tokenize f ((c :: rest).drop ds.length)).map
          (Tok.num false (litVal ds []) :: ·)
    else none

/-- Arithmetic expressions of the restricted grammar, literals tagged with
Python's int/float distinction. -/
inductive AExp
  | lit (isFlt : Bool) (q : ℚ)
  | unNeg (a : AExp)
  | unPos (a : AExp)
  | add (a b : AExp)
  | sub (a b : AExp)
  | mul (a b : AExp)
  | div (a b : AExp)

/-- Call tags for the recursive-descent parser: factor, term, term loop,
expression, expression loop. -/
inductive PCall
  | pf (ts : List Tok)
  | pt (ts : List Tok)
  | ptl (a : AExp) (ts : List Tok)
  | pe (ts : List Tok)
  | pel (a : AExp) (ts : List Tok)

/-- Recursive-descent parser for Python's expression grammar restricted to
numbers, `+ - * /`, unary sign and parentheses: `*`/`/` bind tighter than
binary `+`/`-`, all left-associative, unary sign at the factor level.  First
argument fuel, supplied well above the token count. -/
def parseGo : ℕ → PCall → Option (AExp × List Tok)
  | 0, _ => none
  | f + 1, .pf ts =>
    match ts with
    | Tok.plusT :: r => (parseGo f (.pf r)).map fun p => (AExp.unPos p.1, p.2)
    | Tok.minusT :: r => (parseGo f (.pf r)).map fun p => (AExp.unNeg p.1, p.2)
    | Tok.num b q :: r => some (AExp.lit b q, r)
    | Tok.lparenT :: r =>
      match parseGo f (.pe r) with
      | some (a, Tok.rparenT :: r3) => some (a, r3)
      | _ => none
    | _ => none
  | f + 1, .pt ts =>
    match parseGo f (.pf ts) with
    | some (a, r) => parseGo f (.ptl a r)
    | none => none
  | f + 1, .ptl a ts =>
    match ts with
    | Tok.starT :: r =>
      match parseGo f (.pf r) with
      | some (b, r2) => parseGo f (.ptl (AExp.mul a b) r2)
      | none => none
    | Tok.slashT :: r =>
      match parseGo f (.pf r) with
      | some (b, r2) => parseGo f (.ptl (AExp.div a b) r2)
      | none => none
    | _ => some (a, ts)
  | f + 1, .pe ts =>
    match parseGo f (.pt ts) with
    | some (a, r) => parseGo f (.pel a r)
    | none => none
  | f + 1, .pel a ts =>
    match ts with
    | Tok.plusT :: r =>
      match parseGo f (.pt r) with
      | some (b, r2) => parseGo f (.pel (AExp.add a b) r2)
      | none => none
    | Tok.minusT :: r =>
      match parseGo f (.pt r) with
      | some (b, r2) => parseGo f (.pel (AExp.sub a b) r2)
      | none => none
    | _ => some (a, ts)

/-- Parse a full token list as one expression. -/
def parseToks (ts : List Tok) : Option AExp :=
  match parseGo (10 * ts.length + 10) (.pe ts) with
  | some (a, []) => some a
  | _ => none

/-- A Python number: an exact `int` or a binary64 `float` (held as its exact
rational value). -/
inductive PyNum
  | intv (z : ℤ)
  | fltv (q : ℚ)
deriving DecidableEq

def pyToQ : PyNum → ℚ
  | .intv z => z
  | .fltv q => q

/-- Conversion to float (`int` operands of a mixed operation are converted
first, rounding if beyond 53 bits). -/
def pyToF : PyNum → ℚ
  | .intv z => rnd64 z
  | .fltv q => q

def pyAdd : PyNum → PyNum → PyNum
  | .intv a, .intv b => .intv (a + b)
  | x, y => .fltv (rnd64 (pyToF x + pyToF y))

def pySub : PyNum → PyNum → PyNum
  | .intv a, .intv b => .intv (a - b)
  | x, y => .fltv (rnd64 (pyToF x - pyToF y))

def pyMul : PyNum → PyNum → PyNum
  | .intv a, .intv b => .intv (a * b)
  | x, y => .fltv (rnd64 (pyToF x * pyToF y))

/-- Python true division: always a float; `int / int` is the correctly
rounded exact quotient; `none` is `ZeroDivisionError`. -/
def pyDiv : PyNum → PyNum → Option PyNum
  | .intv a, .intv b => if b = 0 then none else some (.fltv (rnd64 ((a : ℚ) / (b : ℚ))))
  | x, y => if pyToF y = 0 then none else some (.fltv (rnd64 (pyToF x / pyToF y)))

def pyNeg : PyNum → PyNum
  | .intv z => .intv (-z)
  | .fltv q => .fltv (-q)

/-- Evaluation of a compiled expression; `none` is `ZeroDivisionError`.  A
float literal denotes the nearest binary64 value of its decimal text; an int
literal is exact. -/
def evalAExp : AExp → Option PyNum
  | .lit true q => some (.fltv (rnd64 q))
  | .lit false q => some (.intv q.num)
  | .unNeg a => (evalAExp a).map pyNeg
  | .unPos a => evalAExp a
  | .add a b => do pure (pyAdd (← evalAExp a) (← evalAExp b))
  | .sub a b => do pure (pySub (← evalAExp a) (← evalAExp b))
  | .mul a b => do pure (pyMul (← evalAExp a) (← evalAExp b))
  | .div a b => do pyDiv (← evalAExp a) (← evalAExp b)

inductive PyErr
  | synErr
  | divZero
deriving DecidableEq

/-- `eval` of the validated string: compile (else `SyntaxError`), then
evaluate (else `ZeroDivisionError`). -/
def pyEval (s : List Char) : Except PyErr PyNum :=
  match tokenize (s.length + 1) s with
  | none => .error .synErr
  | some ts =>
    match parseToks ts with
    | none => .error .synErr
    | some a =>
      match evalAExp a with
      | some v => .ok v
      | none => .error .divZero

/-! Rounding and locale formatting (src/main.py:179-184).
`round(Decimal(result), n)` converts the int/float result exactly, then
quantizes to `n` fractional digits, half to even; the 18-digit context makes
the quantize raise `InvalidOperation` when the coefficient would need more
than 18 digits.  `f'{result:,}'.replace(',', ' ').replace('.', ',')` groups
the integer digits in threes with spaces and uses a comma decimal point. -/

def halfEvenAt (n : ℕ) (q : ℚ) : ℤ := halfEvenZ (q * (10 : ℚ) ^ n)

/-- Coefficient of the quantized result, or `none` for `InvalidOperation`. -/
def roundDecOpt (n : ℕ) (q : ℚ) : Option ℤ :=
  let m := halfEvenAt n q
  if numLen10 m.natAbs ≤ 18 then some m else none

/-- Split into blocks of three from the front (used on reversed digits). -/
def chunk3 : List Char → List (List Char)
  | [] => []
  | [a] => [[a]]
  | [a, b] => [[a, b]]
  | a :: b :: c :: rest => [a, b, c] :: chunk3 rest

/-- Groups of integer digits, threes from the right. -/
def group3 (ds : List Char) : List (List Char) :=
  ((chunk3 ds.reverse).map List.reverse).reverse

/-- Locale rendering of the quantized decimal `m * 10^(-n)`. -/
def fmtDec (m : ℤ) (n : ℕ) : String :=
  let a := m.natAbs
  let fp := natDigs (a % 10 ^ n)
  let body := List.intercalate [' '] (group3 (natStr (a / 10 ^ n))) ++
    (if n = 0 then [] else ',' :: (List.replicate (n - fp.length) '0' ++ fp))
  ⟨if m < 0 then '-' :: body else body⟩

/-- The crypto test `any(crypto in original_expression for crypto in [...])`
(src/main.py:179): plain substring containment on the original expression. -/
def containsSub : List Char → List Char → Bool
  | sub, [] => sub.isEmpty
  | sub, c :: rest => leadsWith sub (c :: rest) || containsSub sub rest

def hasCrypto (s : String) : Bool :=
  containsSub "bnc".data s.data || containsSub "eth".data s.data ||
  containsSub "ob".data s.data || containsSub "oe".data s.data

/-- Substitution followed by the two percent rewrites: the string that the
safety gate and `eval` receive. -/
def rewrittenExpr (prices : List (String × ℚ)) (s : String) : String :=
  percentSub '-' (percentSub '+' (substituteAll prices s))

/-- The tail of `evaluate_expression` after the rewriting stages, with each
`except` clause mapped to its message. -/
def evalTail (crypto : Bool) (rewritten : String) : String :=
  if safeOK rewritten.data then
    match pyEval rewritten.data with
    | .error .synErr => "Ошибка в синтаксисе"
    | .error .divZero => "Ошибка: деление на ноль"
    | .ok v =>
      match roundDecOpt (if crypto then 8 else 2) (pyToQ v) with
      | none => "Ошибка в вычислениях"
      | some m => fmtDec m (if crypto then 8 else 2)
  else "Ошибка: недопустимые символы"

/-- `evaluate_expression` (src/main.py:160-194) as a function of the price
table it fetched and the query string. -/
def evaluateExpression (prices : List (String × ℚ)) (expression : String) : String :=
  if prices.isEmpty then "Ошибка: не удалось загрузить курсы."
  else evalTail (hasCrypto expression) (rewrittenExpr prices expression)

/-- Exact evaluation of a compiled expression over ℚ, `none` on division by
zero: a literal denotes its exact decimal value and every operation is
exact. -/
def evalAExpQ : AExp → Option ℚ
  | .lit _ q => some q
  | .unNeg a => (evalAExpQ a).map Neg.neg
  | .unPos a => evalAExpQ a
  | .add a b => do pure ((← evalAExpQ a) + (← evalAExpQ b))
  | .sub a b => do pure ((← evalAExpQ a) - (← evalAExpQ b))
  | .mul a b => do pure ((← evalAExpQ a) * (← evalAExpQ b))
  | .div a b => do
    let x ← evalAExpQ a
    let y ← evalAExpQ b
    if y = 0 then none else pure (x / y)

/-- Modelled from the spec: "All intermediate arithmetic uses exact decimal
semantics (no binary floating-point drift) at ≥18 significant digits of
working precision" until the final rounding step.  Same pipeline as
`evaluateExpression`, but the substituted-and-rewritten string is evaluated
exactly (every decimal literal and intermediate value kept exact, which is
what any working precision of at least 18 significant digits produces for the
inputs compared below), with only the final rounding step retained. -/
def evalTailSpecDec (crypto : Bool) (rewritten : String) : String :=
  if safeOK rewritten.data then
    match tokenize (rewritten.data.length + 1) rewritten.data with
    | none => "Ошибка в синтаксисе"
    | some ts =>
      match parseToks ts with
      | none => "Ошибка в синтаксисе"
      | some a =>
        match evalAExpQ a with
        | none => "Ошибка: деление на ноль"
        | some q =>
          match roundDecOpt (if crypto then 8 else 2) q with
          | none => "Ошибка в вычислениях"
          | some m => fmtDec m (if crypto then 8 else 2)
  else "Ошибка: недопустимые символы"

/-- Modelled from the spec: `evaluateExpression` as the spec describes it,
with exact decimal intermediate arithmetic (see `evalTailSpecDec`). -/
def evaluateExpressionSpecDec (prices : List (String × ℚ)) (expression : String) :
    String :=
  if prices.isEmpty then "Ошибка: не удалось загрузить курсы."
  else evalTailSpecDec (hasCrypto expression) (rewrittenExpr prices expression)

/-! Helper lemmas: substitution. -/

/-- A position-by-position scan that never fires a match leaves the string
unchanged. -/
theorem substGo_of_not_occ (key rep : List Char) :
    ∀ (s : List Char) (prev : Option Char), hasWWOcc key prev s = false →
      substGo key rep prev 0 s = s := by
  intro s
  induction s with
  | nil => intro prev _; rfl
  | cons c rest ih =>
    intro prev h
    rw [hasWWOcc] at h
    rcases Bool.or_eq_false_iff.mp h with ⟨h1, h2⟩
    rw [substGo, if_neg (by simp [h1])]
    exact congrArg (c :: ·) (ih (some c) h2)

/-- If the first character of the key never occurs in the string, there is no
whole-word occurrence. -/
theorem hasWWOcc_of_head_not_mem (c0 : Char) (k : List Char) :
    ∀ (s : List Char) (prev : Option Char), c0 ∉ s →
      hasWWOcc (c0 :: k) prev s = false := by
  intro s
  induction s with
  | nil => intro prev _; rfl
  | cons c rest ih =>
    intro prev hmem
    rw [hasWWOcc, Bool.or_eq_false_iff]
    refine ⟨?_, ih (some c) fun h => hmem (List.mem_cons_of_mem c h)⟩
    have hne : ¬(c0 = c) := fun h => hmem (h ▸ List.mem_cons_self c rest)
    simp [matchAt, leadsWith, hne]

/-- Substituting a list of keys, none of which has a whole-word occurrence,
is the identity. -/
theorem foldl_subst_id (rep : String → List Char) (s : String) :
    ∀ l : List String, (∀ k ∈ l, hasWWOcc k.data none s.data = false) →
      l.foldl (fun e k => (⟨substTokenWB k.data (rep k) e.data⟩ : String)) s = s := by
  intro l
  induction l with
  | nil => intro _; rfl
  | cons k ks ih =>
    intro h
    rw [List.foldl_cons]
    have hstep : (⟨substTokenWB k.data (rep k) s.data⟩ : String) = s := by
      rw [substTokenWB, substGo_of_not_occ _ _ _ _ (h k (List.mem_cons_self k ks))]
    rw [hstep]
    exact ih fun x hx => h x (List.mem_cons_of_mem k hx)

/-- The substitution stage is the identity when no key of the table has a
whole-word occurrence in the expression. -/
theorem substituteAll_id (prices : List (String × ℚ)) (s : String)
    (h : ∀ k ∈ prices.map Prod.fst, hasWWOcc k.data none s.data = false) :
    substituteAll prices s = s := by
  rw [substituteAll]
  refine foldl_subst_id _ s _ fun k hk => h k ?_
  exact ((List.perm_insertionSort lenGE (prices.map Prod.fst)).mem_iff).mp hk

/-! Helper lemmas: the characters of `decStr`. -/

theorem isDigitCh_digitCh (d : ℕ) : isDigitCh (digitCh d) = true := by
  have h : d % 10 < 10 := Nat.mod_lt d (by decide)
  rw [digitCh]
  generalize d % 10 = r at h ⊢
  interval_cases r <;> decide

theorem natDigsGo_mem (f : ℕ) : ∀ n, ∀ c ∈ natDigsGo f n, isDigitCh c = true := by
  induction f with
  | zero => intro n c hc; cases hc
  | succ f ih =>
    intro n c hc
    cases n with
    | zero => cases hc
    | succ m =>
      simp only [natDigsGo] at hc
      rcases List.mem_cons.mp hc with h | h
      · exact h ▸ isDigitCh_digitCh _
      · exact ih _ c h

theorem natDigs_mem (n : ℕ) : ∀ c ∈ natDigs n, isDigitCh c = true := by
  intro c hc
  exact natDigsGo_mem n n c (List.mem_reverse.mp hc)

theorem natStr_mem (n : ℕ) : ∀ c ∈ natStr n, isDigitCh c = true := by
  intro c hc
  rw [natStr] at hc
  by_cases h : n = 0
  · rw [if_pos h] at hc
    have := List.mem_singleton.mp hc
    subst this
    decide
  · rw [if_neg h] at hc
    exact natDigs_mem n c hc

/-- Every character of `decStr` is a digit, a dot or a minus sign; in
particular no letter ever appears in a substituted value. -/
theorem decStr_mem (q : ℚ) :
    ∀ c ∈ decStr q, isDigitCh c = true ∨ c = '.' ∨ c = '-' := by
  intro c hc
  rw [decStr] at hc
  split at hc
  · rcases List.mem_cons.mp hc with h | h
    · exact Or.inr (Or.inr h)
    · revert h
      split
      · intro h; exact Or.inl (natStr_mem _ c h)
      · intro h
        rcases List.mem_append.mp h with h | h
        · exact Or.inl (natStr_mem _ c h)
        · rcases List.mem_cons.mp h with h | h
          · exact Or.inr (Or.inl h)
          · rcases List.mem_append.mp h with h | h
            · exact Or.inl (List.eq_of_mem_replicate h ▸ by decide)
            · exact Or.inl (natDigs_mem _ c h)
  · revert hc
    split
    · intro h; exact Or.inl (natStr_mem _ c h)
    · intro h
      rcases List.mem_append.mp h with h | h
      · exact Or.inl (natStr_mem _ c h)
      · rcases List.mem_cons.mp h with h | h
        · exact Or.inr (Or.inl h)
        · rcases List.mem_append.mp h with h | h
          · exact Or.inl (List.eq_of_mem_replicate h ▸ by decide)
          · exact Or.inl (natDigs_mem _ c h)

/-- C9: with an empty price table, evaluation returns the rates-unavailable
message for every input string, before any substitution, rewriting,
validation or arithmetic is attempted — the result does not depend on the
expression beyond the message itself. -/
theorem claim_C9 (s : String) :
    evaluateExpression [] s = "Ошибка: не удалось загрузить курсы." := rfl

/-- C3: with a non-empty price table none of whose tokens has a whole-word
occurrence in the input, the percent clauses rewrite to the claimed products:
"100 + 10%" evaluates to "110,00" and "200 - 25%" to "150,00". -/
theorem claim_C3 (prices : List (String × ℚ)) (hne : prices ≠ [])
    (hocc1 : ∀ k ∈ prices.map Prod.fst, hasWWOcc k.data none "100 + 10%".data = false)
    (hocc2 : ∀ k ∈ prices.map Prod.fst, hasWWOcc k.data none "200 - 25%".data = false) :
    evaluateExpression prices "100 + 10%" = "110,00" ∧
    evaluateExpression prices "200 - 25%" = "150,00" := by
  have hpe : prices.isEmpty = false := by
    cases prices with
    | nil => exact absurd rfl hne
    | cons a l => rfl
  constructor
  · simp only [evaluateExpression, hpe, Bool.false_eq_true, if_false]
    rw [rewrittenExpr, substituteAll_id _ _ hocc1]
    decide
  · simp only [evaluateExpression, hpe, Bool.false_eq_true, if_false]
    rw [rewrittenExpr, substituteAll_id _ _ hocc2]
    decide

/-- C3 witness: a concrete nonempty table whose only token occurs nowhere in
either input. -/
theorem claim_C3_witness :
    evaluateExpression [("zz", (1 : ℚ))] "100 + 10%" = "110,00" ∧
    evaluateExpression [("zz", (1 : ℚ))] "200 - 25%" = "150,00" :=
  claim_C3 [("zz", (1 : ℚ))] (by decide)
    (by intro k hk; rcases List.mem_singleton.mp hk with rfl; decide)
    (by intro k hk; rcases List.mem_singleton.mp hk with rfl; decide)

/-- C4: token substitution replaces only whole-word occurrences (a string
with no whole-word occurrence of a key is left unchanged, and in particular
"eur" is untouched when only the token "er" is in the table, whatever the
replacement text), and keys are processed longest-first (the sorted key list
is length-descending and a permutation of the table's keys), so a token that
is a strict textual prefix of another is substituted whole with no residual
character: with both "e" and "eu" in the table, input "eu" becomes exactly
the value of "eu". -/
theorem claim_C4 :
    (∀ key rep s : List Char, hasWWOcc key none s = false →
      substTokenWB key rep s = s) ∧
    (∀ rep : List Char, substTokenWB "er".data rep "eur".data = "eur".data) ∧
    (∀ keys : List String,
      List.Sorted lenGE (sortKeysLenDesc keys) ∧ (sortKeysLenDesc keys).Perm keys) ∧
    (∀ v w : ℚ, substituteAll [("e", v), ("eu", w)] "eu" = ⟨decStr w⟩) := by
  refine ⟨?_, ?_, ?_, ?_⟩
  · intro key rep s h
    exact substGo_of_not_occ key rep s none h
  · intro rep
    exact substGo_of_not_occ _ rep _ none (by decide)
  · intro keys
    exact ⟨List.sorted_insertionSort lenGE keys, List.perm_insertionSort lenGE keys⟩
  · intro v w
    rw [substituteAll]
    show (⟨substTokenWB "e".data (decStr (lookupPrice [("e", v), ("eu", w)] "e"))
        (substTokenWB "eu".data (decStr (lookupPrice [("e", v), ("eu", w)] "eu"))
          "eu".data)⟩ : String) = ⟨decStr w⟩
    have h1 : substTokenWB "eu".data (decStr w) "eu".data = decStr w := by
      have h0 : substTokenWB "eu".data (decStr w) "eu".data = decStr w ++ [] := rfl
      rw [h0, List.append_nil]
    have h2 : substTokenWB "e".data (decStr v) (decStr w) = decStr w := by
      rw [substTokenWB]
      apply substGo_of_not_occ
      apply hasWWOcc_of_head_not_mem
      intro hmem
      rcases decStr_mem w 'e' hmem with h | h | h
      · exact absurd h (by decide)
      · exact absurd h (by decide)
      · exact absurd h (by decide)
    show (⟨substTokenWB "e".data (decStr v) (substTokenWB "eu".data (decStr w)
        "eu".data)⟩ : String) = ⟨decStr w⟩
    rw [h1, h2]

/-- C4 witness: the first two conjuncts instantiated at the spec's own
word-boundary example. -/
theorem claim_C4_witness :
    substTokenWB "er".data ['8', '3'] "eur".data = "eur".data ∧
    substituteAll [("e", (5 : ℚ)), ("eu", (7 : ℚ))] "eu" = ⟨decStr 7⟩ :=
  ⟨claim_C4.1 "er".data ['8', '3'] "eur".data (by decide), claim_C4.2.2.2 5 7⟩

/-- C7: the result is rounded (and zero-padded) to 8 fractional digits when
the original, pre-substitution expression contains a crypto token as a
substring, and to 2 otherwise — including when the crypto token is
substituted away, and even when the value has no fractional part. -/
theorem claim_C7 :
    (∀ (prices : List (String × ℚ)) (s : String) (v : PyNum) (m : ℤ),
      prices ≠ [] →
      safeOK (rewrittenExpr prices s).data = true →
      pyEval (rewrittenExpr prices s).data = .ok v →
      roundDecOpt (if hasCrypto s then 8 else 2) (pyToQ v) = some m →
      evaluateExpression prices s = fmtDec m (if hasCrypto s then 8 else 2)) ∧
    evaluateExpression [("bnc", (50000 : ℚ))] "bnc*0 + 7" = "7,00000000" ∧
    evaluateExpression [("eth", (4000 : ℚ))] "eth*0+1" = "1,00000000" ∧
    evaluateExpression [("ob", (100 : ℚ))] "ob*0+1" = "1,00000000" ∧
    evaluateExpression [("oe", (5 : ℚ))] "oe*0+1" = "1,00000000" ∧
    evaluateExpression [("bnc", (50000 : ℚ))] "1+1" = "2,00" ∧
    evaluateExpression [("ur", (80 : ℚ))] "5*0+1" = "1,00" := by
  refine ⟨?_, by decide, by decide, by decide, by decide, by decide, by decide⟩
  intro prices s v m hne hsafe heval hround
  have hpe : prices.isEmpty = false := by
    cases prices with
    | nil => exact absurd rfl hne
    | cons a l => rfl
  simp only [evaluateExpression, hpe, Bool.false_eq_true, if_false, evalTail, hsafe,
    if_true, heval, hround]

/-- C7 witness: the general rounding statement instantiated on a crypto
expression with an integer value. -/
theorem claim_C7_witness :
    evaluateExpression [("bnc", (50000 : ℚ))] "bnc*0 + 9" = fmtDec 900000000 8 :=
  claim_C7.1 [("bnc", (50000 : ℚ))] "bnc*0 + 9" (PyNum.intv 9) 900000000
    (by decide) (by decide) rfl (by decide)

/-! Helper lemmas: digit grouping. -/

theorem chunk3_flatten : ∀ l : List Char, (chunk3 l).flatten = l := by
  intro l
  induction l using chunk3.induct with
  | case1 => rfl
  | case2 a => rfl
  | case3 a b => rfl
  | case4 a b c rest ih => simp [chunk3, ih]

theorem chunk3_mem_len : ∀ l : List Char, ∀ b ∈ chunk3 l,
    1 ≤ b.length ∧ b.length ≤ 3 := by
  intro l
  induction l using chunk3.induct with
  | case1 => intro b hb; cases hb
  | case2 a =>
    intro b hb
    rcases List.mem_singleton.mp hb with rfl
    exact ⟨by simp, by simp⟩
  | case3 a b0 =>
    intro b hb
    rcases List.mem_singleton.mp hb with rfl
    exact ⟨by simp, by simp⟩
  | case4 a b0 c rest ih =>
    intro b hb
    rw [chunk3] at hb
    rcases List.mem_cons.mp hb with rfl | hb
    · exact ⟨by simp, by simp⟩
    · exact ih b hb

theorem chunk3_dropLast_len : ∀ l : List Char, ∀ b ∈ (chunk3 l).dropLast,
    b.length = 3 := by
  intro l
  induction l using chunk3.induct with
  | case1 => intro b hb; cases hb
  | case2 a => intro b hb; cases hb
  | case3 a b0 => intro b hb; cases hb
  | case4 a b0 c rest ih =>
    intro b hb
    rw [chunk3] at hb
    cases hrest : chunk3 rest with
    | nil => rw [hrest] at hb; cases hb
    | cons x xs =>
      rw [hrest, List.dropLast_cons₂] at hb
      rcases List.mem_cons.mp hb with rfl | hb
      · rfl
      · exact ih b (by rw [hrest]; exact hb)

theorem group3_flatten (ds : List Char) : (group3 ds).flatten = ds := by
  rw [group3, List.flatten_reverse, List.map_map]
  have h : List.reverse ∘ List.reverse = fun b : List Char => b := by
    funext b; simp
  rw [h, List.map_id', chunk3_flatten, List.reverse_reverse]

theorem group3_mem_len (ds : List Char) : ∀ b ∈ group3 ds,
    1 ≤ b.length ∧ b.length ≤ 3 := by
  intro b hb
  rw [group3] at hb
  rcases List.mem_map.mp (List.mem_reverse.mp hb) with ⟨b0, hb0, rfl⟩
  have := chunk3_mem_len ds.reverse b0 hb0
  simpa using this

theorem group3_drop_one_len (ds : List Char) : ∀ b ∈ (group3 ds).drop 1,
    b.length = 3 := by
  intro b hb
  rw [group3, List.drop_one, List.tail_reverse] at hb
  rcases List.mem_map.mp (List.mem_reverse.mp
      ((List.map_dropLast List.reverse (chunk3 ds.reverse)) ▸ hb)) with ⟨b0, hb0, rfl⟩
  have := chunk3_dropLast_len ds.reverse b0 hb0
  simpa using this

/-- C8: formatting groups the integer digits in threes from the right with a
space separator and renders the decimal point as a comma: 1234567.89 formats
as "1 234 567,89" through the whole pipeline and 0 as "0,00" under the
2-decimal default; the grouping loses no digit, every group has one to three
digits, and every group after the first has exactly three. -/
theorem claim_C8 :
    evaluateExpression [("ur", (80 : ℚ))] "1234567.89" = "1 234 567,89" ∧
    evaluateExpression [("ur", (80 : ℚ))] "0" = "0,00" ∧
    (∀ ds : List Char, (group3 ds).flatten = ds) ∧
    (∀ ds : List Char,
      ((group3 ds).all fun b => decide (1 ≤ b.length) && decide (b.length ≤ 3)) = true) ∧
    (∀ ds : List Char,
      (((group3 ds).drop 1).all fun b => decide (b.length = 3)) = true) := by
  refine ⟨by decide, by decide, group3_flatten, ?_, ?_⟩
  · intro ds
    rw [List.all_eq_true]
    intro b hb
    rcases group3_mem_len ds b hb with ⟨h1, h2⟩
    simp [h1, h2]
  · intro ds
    rw [List.all_eq_true]
    intro b hb
    simp [group3_drop_one_len ds b hb]

/-! Helper lemmas: the safety gate. -/

/-- The tolerated trailing-newline shape: everything but a final newline is
in the claimed ASCII set, and something precedes the newline. -/
def trailingNlException (s : List Char) : Bool :=
  decide (s.getLast? = some '\n') && !s.dropLast.isEmpty &&
    s.dropLast.all asciiAllowedCh

/-- A character rejected by the tokenizer stays in the suffix after the
maximal digit run is consumed. -/
theorem mem_drop_takeWhile {c : Char} (p : Char → Bool) (hc : p c = false) :
    ∀ l : List Char, c ∈ l → c ∈ l.drop (l.takeWhile p).length := by
  intro l
  induction l with
  | nil => intro h; cases h
  | cons a rest ih =>
    intro hmem
    by_cases hpa : p a = true
    · rw [List.takeWhile_cons_of_pos hpa]
      simp only [List.length_cons, List.drop_succ_cons]
      rcases List.mem_cons.mp hmem with rfl | h
      · rw [hpa] at hc
        cases hc
      · exact ih h
    · rw [List.takeWhile_cons_of_neg hpa]
      simpa using hmem

/-- The tokenizer fails on any string containing a character outside its
token alphabet — as Python's tokenizer does inside an expression. -/
theorem tokenize_none_of_bad {c : Char} (hc : tokCh c = false) :
    ∀ (f : ℕ) (s : List Char), c ∈ s → tokenize f s = none := by
  have hker : ∀ b : Char, tokCh b = true → b ≠ c := by
    intro b hb he
    rw [he, hc] at hb
    cases hb
  have h9 : isDigitCh c = false := by
    cases h : isDigitCh c
    · rfl
    · have : tokCh c = true := by
        rw [tokCh]
        simp [h]
      rw [this] at hc
      cases hc
  intro f
  induction f with
  | zero => intro s _; rfl
  | succ f ih =>
    intro s hmem
    cases s with
    | nil => cases hmem
    | cons a rest =>
      have hcrest : a ≠ c → c ∈ rest := fun hne =>
        (List.mem_cons.mp hmem).resolve_left fun h => hne h.symm
      rw [tokenize]
      by_cases k1 : (a = ' ' || a = '\n') = true
      · rw [if_pos k1]
        refine ih rest (hcrest (hker a ?_))
        have k1' : a = ' ' ∨ a = '\n' := by simpa using k1
        rcases k1' with rfl | rfl
        · decide
        · decide
      · rw [if_neg k1]
        by_cases k2 : a = '+'
        · rw [if_pos k2]
          rw [ih rest (hcrest (hker a (by rw [k2]; decide)))]
          rfl
        · rw [if_neg k2]
          by_cases k3 : a = '-'
          · rw [if_pos k3]
            rw [ih rest (hcrest (hker a (by rw [k3]; decide)))]
            rfl
          · rw [if_neg k3]
            by_cases k4 : a = '*'
            · rw [if_pos k4]
              rw [ih rest (hcrest (hker a (by rw [k4]; decide)))]
              rfl
            · rw [if_neg k4]
              by_cases k5 : a = '/'
              · rw [if_pos k5]
                rw [ih rest (hcrest (hker a (by rw [k5]; decide)))]
                rfl
              · rw [if_neg k5]
                by_cases k6 : a = '('
                · rw [if_pos k6]
                  rw [ih rest (hcrest (hker a (by rw [k6]; decide)))]
                  rfl
                · rw [if_neg k6]
                  by_cases k7 : a = ')'
                  · rw [if_pos k7]
                    rw [ih rest (hcrest (hker a (by rw [k7]; decide)))]
                    rfl
                  · rw [if_neg k7]
                    by_cases k8 : (isDigitCh a || a = '.') = true
                    · rw [if_pos k8]
                      have hsuf : c ∈ (a :: rest).drop
                          ((a :: rest).takeWhile isDigitCh).length :=
                        mem_drop_takeWhile isDigitCh h9 (a :: rest) hmem
                      have h10 : ¬(c = '.') := by
                        intro he
                        have : tokCh c = true := by
                          rw [tokCh]
                          simp [he]
                        rw [this] at hc
                        cases hc
                      dsimp only
                      split
                      case _ r2 heq =>
                        have hin : c ∈ ('.' : Char) :: r2 := by
                          rw [← heq]
                          exact hsuf
                        have hinr2 : c ∈ r2 := by
                          rcases List.mem_cons.mp hin with rfl | h
                          · exact absurd rfl h10
                          · exact h
                        by_cases k9 : (((a :: rest).takeWhile isDigitCh).length = 0 &&
                            (r2.takeWhile isDigitCh).length = 0) = true
                        · rw [if_pos k9]
                        · rw [if_neg k9]
                          rw [ih _ (mem_drop_takeWhile isDigitCh h9 r2 hinr2)]
                          rfl
                      case _ =>
                        rw [ih _ hsuf]
                        rfl
                    · rw [if_neg k8]

/-- A non-ASCII decimal digit is outside the tokenizer's alphabet. -/
theorem ndExtra_tokCh_false {c : Char} (h : ndExtraDigit c = true) :
    tokCh c = false := by
  have h127 : 127 < c.toNat := by
    rw [ndExtraDigit, Bool.and_eq_true] at h
    exact of_decide_eq_true h.1
  have hne : ∀ d : Char, d.toNat ≤ 127 → ¬(c = d) := by
    intro d hd he
    rw [he] at h127
    omega
  have hdig : isDigitCh c = false := by
    rw [isDigitCh]
    have hlt : ¬(c.toNat ≤ 57) := by omega
    simp [hlt]
  simp [tokCh, hdig, hne ' ' (by decide), hne '\n' (by decide),
    hne '+' (by decide), hne '-' (by decide), hne '*' (by decide),
    hne '/' (by decide), hne '(' (by decide), hne ')' (by decide),
    hne '.' (by decide)]

/-- A character the gate admits that is outside the claimed ASCII set is a
non-ASCII decimal digit. -/
theorem ndExtra_of_allowed_not_ascii {c : Char} (h1 : allowedCh c = true)
    (h2 : asciiAllowedCh c = false) : ndExtraDigit c = true := by
  rw [allowedCh, h2, Bool.false_or] at h1
  exact h1

/-- What a successful safety-gate match implies: either the whole string is
nonempty and in the allowed class, or the string is a nonempty allowed body
followed by a single final newline (the `$` anchor's pre-newline position). -/
theorem safeOK_cases (s : List Char) (h : safeOK s = true) :
    (s ≠ [] ∧ ∀ c ∈ s, allowedCh c = true) ∨
    (∃ t, s = t ++ ['\n'] ∧ t ≠ [] ∧ ∀ c ∈ t, allowedCh c = true) := by
  rw [safeOK] at h
  simp only [Bool.and_eq_true, Bool.or_eq_true, decide_eq_true_eq] at h
  rcases h with ⟨h1, h2 | ⟨h2, h3⟩⟩
  · left
    have hpre := List.prefix_iff_eq_take.mp (List.takeWhile_prefix allowedCh (l := s))
    have hfull : s.takeWhile allowedCh = s := by
      rw [hpre, h2, List.take_length]
    constructor
    · intro hnil
      rw [hnil] at h1
      simp at h1
    · intro c hc
      exact List.mem_takeWhile_imp (hfull ▸ hc)
  · right
    have hnil : s ≠ [] := by
      intro hnil
      rw [hnil] at h3
      cases h3
    refine ⟨s.dropLast, ?_, ?_, ?_⟩
    · have happ := List.dropLast_append_getLast hnil
      have hlast : s.getLast hnil = '\n' := by
        have h4 := List.getLast?_eq_getLast s hnil
        rw [h4] at h3
        exact Option.some.inj h3
      rw [← hlast]
      exact happ.symm
    · intro hd
      have hlen0 : s.dropLast.length = 0 := by rw [hd]; rfl
      rw [List.length_dropLast] at hlen0
      omega
    · have hpre := List.prefix_iff_eq_take.mp (List.takeWhile_prefix allowedCh (l := s))
      have hdl := List.prefix_iff_eq_take.mp (List.dropLast_prefix s)
      have hlen : (s.takeWhile allowedCh).length = s.dropLast.length := by
        rw [List.length_dropLast]
        omega
      have heq : s.takeWhile allowedCh = s.dropLast := by
        rw [hpre, hdl, hlen]
      intro c hc
      exact List.mem_takeWhile_imp (heq ▸ hc)

/-- C6 (amended): if the fully substituted-and-rewritten string contains any
character outside the set {space, ASCII digit, '.', '+', '-', '*', '/', '(',
')'} and the string is not of the tolerated shape of an in-set nonempty body
followed by one final newline, evaluation returns the invalid-characters or
the syntax-error classification and never crashes: the gate's `\d` also
admits non-ASCII Unicode decimal digits, which then fail the tokenizer and
yield the syntax-error message, while every other out-of-set character fails
the gate itself.  The check is applied to the rewritten string, not the
original — e.g. an unknown token's letters survive substitution and are
rejected. -/
theorem claim_C6 :
    (∀ (prices : List (String × ℚ)) (s : String),
      prices ≠ [] →
      (rewrittenExpr prices s).data.all asciiAllowedCh = false →
      trailingNlException (rewrittenExpr prices s).data = false →
      evaluateExpression prices s = "Ошибка: недопустимые символы" ∨
      evaluateExpression prices s = "Ошибка в синтаксисе") ∧
    evaluateExpression [("ur", (83 : ℚ))] "x+1" = "Ошибка: недопустимые символы" ∧
    evaluateExpression [("ur", (83 : ℚ))] "5١" = "Ошибка в синтаксисе" := by
  refine ⟨?_, by decide, by decide⟩
  intro prices s hne hbad hexc
  have hpe : prices.isEmpty = false := by
    cases prices with
    | nil => exact absurd rfl hne
    | cons a l => rfl
  cases hs : safeOK (rewrittenExpr prices s).data with
  | false =>
    left
    simp only [evaluateExpression, hpe, Bool.false_eq_true, if_false, evalTail, hs,
      Bool.false_eq_true, if_false]
  | true =>
    right
    have hdigit : ∃ c ∈ (rewrittenExpr prices s).data, ndExtraDigit c = true := by
      rcases safeOK_cases _ hs with ⟨_, hall⟩ | ⟨t, ht, htne, hallt⟩
      · obtain ⟨c, hc, hcp⟩ := List.all_eq_false.mp hbad
        have hcf : asciiAllowedCh c = false := by
          cases h : asciiAllowedCh c
          · rfl
          · exact absurd h hcp
        exact ⟨c, hc, ndExtra_of_allowed_not_ascii (hall c hc) hcf⟩
      · have h2 : t.isEmpty = false := by
          cases t with
          | nil => exact absurd rfl htne
          | cons a l => rfl
        have h3 : t.all asciiAllowedCh = false := by
          cases h4 : t.all asciiAllowedCh
          · rfl
          · rw [trailingNlException, ht, List.getLast?_concat,
              List.dropLast_concat, h2, h4] at hexc
            exact absurd hexc (by decide)
        obtain ⟨c, hc, hcp⟩ := List.all_eq_false.mp h3
        have hcf : asciiAllowedCh c = false := by
          cases h : asciiAllowedCh c
          · rfl
          · exact absurd h hcp
        refine ⟨c, ?_, ndExtra_of_allowed_not_ascii (hallt c hc) hcf⟩
        rw [ht]
        exact List.mem_append_left _ hc
    obtain ⟨c, hcmem, hcd⟩ := hdigit
    have htok : tokenize ((rewrittenExpr prices s).data.length + 1)
        (rewrittenExpr prices s).data = none :=
      tokenize_none_of_bad (ndExtra_tokCh_false hcd) _ _ hcmem
    simp only [evaluateExpression, hpe, Bool.false_eq_true, if_false, evalTail, hs,
      if_true, pyEval, htok]

/-- C6 witness: a letter left unsubstituted fails validation; the general
conjunct classifies it as invalid characters or a syntax error. -/
theorem claim_C6_witness :
    evaluateExpression [("ur", (83 : ℚ))] "x+1" = "Ошибка: недопустимые символы" ∨
    evaluateExpression [("ur", (83 : ℚ))] "x+1" = "Ошибка в синтаксисе" :=
  claim_C6.1 [("ur", (83 : ℚ))] "x+1" (by decide) (by decide) (by decide)

/-- C6 counterexample to the claim as stated: the rewritten form of "1\n"
(with a non-empty table whose token does not occur) contains the newline
character, which is outside the allowed class, yet evaluation does not return
the invalid-characters (or syntax-error) classification — the `$` anchor of
the validation regex accepts a final newline, and the expression evaluates to
"1,00". -/
theorem claim_C6_counter :
    evaluateExpression [("ur", (83 : ℚ))] "1\n" = "1,00" ∧
    '\n' ∈ (rewrittenExpr [("ur", (83 : ℚ))] "1\n").data ∧
    allowedCh '\n' = false ∧
    "1,00" ≠ "Ошибка: недопустимые символы" ∧
    "1,00" ≠ "Ошибка в синтаксисе" := by
  refine ⟨by decide, by decide, by decide, by decide, by decide⟩

/-! Helper lemmas: dictionary lookups in the aggregator. -/

theorem lookup_dinsert_same (k : String) (v : ℚ) (t : List (String × ℚ)) :
    List.lookup k (dinsert k v t) = some v := by
  simp [dinsert, List.lookup_cons]

theorem lookup_dinsert_ne {k k0 : String} (h : k ≠ k0) (v : ℚ)
    (t : List (String × ℚ)) : List.lookup k (dinsert k0 v t) = List.lookup k t := by
  simp [dinsert, List.lookup_cons, beq_eq_false_iff_ne.mpr h]

theorem lookup_none_of_keys {k : String} {t : List (String × ℚ)}
    (h : ∀ p ∈ t, p.1 ≠ k) : List.lookup k t = none := by
  induction t with
  | nil => rfl
  | cons p rest ih =>
    rcases p with ⟨k0, v⟩
    rw [List.lookup_cons]
    have hne : k ≠ k0 := fun he => h (k0, v) (List.mem_cons_self _ _) (he ▸ rfl)
    rw [show (k == k0) = false from beq_eq_false_iff_ne.mpr hne]
    exact ih fun p hp => h p (List.mem_cons_of_mem _ hp)

theorem lookup_merged_ne {k : String} (hb : k ≠ "bnc") (he : k ≠ "eth")
    (cbr : List (String × ℚ)) (bnc eth : Option ℚ) :
    List.lookup k (mergedPrimitives cbr bnc eth) = List.lookup k cbr := by
  rw [mergedPrimitives.eq_def]
  cases bnc <;> cases eth <;> dsimp only <;>
    (try split_ifs) <;>
    simp only [lookup_dinsert_ne hb, lookup_dinsert_ne he]

theorem lookup_addOb_ne {k : String} (h : k ≠ "ob") (t : List (String × ℚ)) :
    List.lookup k (addOb t) = List.lookup k t := by
  rw [addOb]
  cases h1 : List.lookup "bnc" t <;> cases h2 : List.lookup "ur" t <;>
    simp only [lookup_dinsert_ne h]

theorem lookup_addOe_ne {k : String} (h : k ≠ "oe") (t : List (String × ℚ)) :
    List.lookup k (addOe t) = List.lookup k t := by
  rw [addOe]
  cases h1 : List.lookup "eth" t <;> cases h2 : List.lookup "ur" t <;>
    simp only [lookup_dinsert_ne h]

theorem lookup_ob_addOb (t : List (String × ℚ)) :
    List.lookup "ob" (addOb t) =
      (match List.lookup "bnc" t, List.lookup "ur" t with
        | some b, some u => some (decMul b u)
        | _, _ => List.lookup "ob" t) := by
  rw [addOb]
  cases h1 : List.lookup "bnc" t <;> cases h2 : List.lookup "ur" t <;>
    simp only [lookup_dinsert_same]

theorem lookup_oe_addOe (t : List (String × ℚ)) :
    List.lookup "oe" (addOe t) =
      (match List.lookup "eth" t, List.lookup "ur" t with
        | some v, some u => some (decMul v u)
        | _, _ => List.lookup "oe" t) := by
  rw [addOe]
  cases h1 : List.lookup "eth" t <;> cases h2 : List.lookup "ur" t <;>
    simp only [lookup_dinsert_same]

/-- C10: a crypto-ticker fetch that succeeds with a price parsing to decimal
zero is indistinguishable, at `fetch_all_prices`' interface, from a failed
fetch: the truthiness test `if bnc_price:` (and likewise for `eth`) drops the
token exactly as `None` does, so both the merged primitives and the whole
result coincide with the failure case. -/
theorem claim_C10 (cbr : List (String × ℚ)) (other : Option ℚ) :
    (mergedPrimitives cbr (some 0) other = mergedPrimitives cbr none other ∧
      fetchAllPrices cbr (some 0) other = fetchAllPrices cbr none other) ∧
    (mergedPrimitives cbr other (some 0) = mergedPrimitives cbr other none ∧
      fetchAllPrices cbr other (some 0) = fetchAllPrices cbr other none) := by
  have h1 : mergedPrimitives cbr (some 0) other = mergedPrimitives cbr none other := by
    rw [mergedPrimitives.eq_def, mergedPrimitives.eq_def]
    cases other <;> simp
  have h2 : mergedPrimitives cbr other (some 0) = mergedPrimitives cbr other none := by
    rw [mergedPrimitives.eq_def, mergedPrimitives.eq_def]
    cases other <;> simp
  refine ⟨⟨h1, ?_⟩, ⟨h2, ?_⟩⟩
  · simp only [fetchAllPrices, h1]
  · simp only [fetchAllPrices, h2]

/-- C5: on any successful fetch, the derived token "eu" is present in the
returned table exactly when both "er" and "ur" are present in the merged
primitive table, with value `er / ur` under the 18-digit decimal context;
likewise "ob" for "bnc" and "ur" (value `bnc * ur`) and "oe" for "eth" and
"ur" (value `eth * ur`); a missing operand just omits the derived token. -/
theorem claim_C5 (cbr : List (String × ℚ)) (bnc eth : Option ℚ)
    (hk : ∀ p ∈ cbr, p.1 = "ur" ∨ p.1 = "cr" ∨ p.1 = "er")
    (t : List (String × ℚ)) (ht : fetchAllPrices cbr bnc eth = some t) :
    (List.lookup "eu" t =
      (match List.lookup "er" (mergedPrimitives cbr bnc eth),
          List.lookup "ur" (mergedPrimitives cbr bnc eth) with
        | some ev, some uv => some (decDiv ev uv)
        | _, _ => none)) ∧
    (List.lookup "ob" t =
      (match List.lookup "bnc" (mergedPrimitives cbr bnc eth),
          List.lookup "ur" (mergedPrimitives cbr bnc eth) with
        | some bv, some uv => some (decMul bv uv)
        | _, _ => none)) ∧
    (List.lookup "oe" t =
      (match List.lookup "eth" (mergedPrimitives cbr bnc eth),
          List.lookup "ur" (mergedPrimitives cbr bnc eth) with
        | some hv, some uv => some (decMul hv uv)
        | _, _ => none)) ∧
    ((List.lookup "eu" t).isSome ↔
      (List.lookup "er" (mergedPrimitives cbr bnc eth)).isSome ∧
      (List.lookup "ur" (mergedPrimitives cbr bnc eth)).isSome) ∧
    ((List.lookup "ob" t).isSome ↔
      (List.lookup "bnc" (mergedPrimitives cbr bnc eth)).isSome ∧
      (List.lookup "ur" (mergedPrimitives cbr bnc eth)).isSome) ∧
    ((List.lookup "oe" t).isSome ↔
      (List.lookup "eth" (mergedPrimitives cbr bnc eth)).isSome ∧
      (List.lookup "ur" (mergedPrimitives cbr bnc eth)).isSome) := by
  have hcbr : ∀ k : String, k ≠ "ur" → k ≠ "cr" → k ≠ "er" →
      List.lookup k cbr = none := by
    intro k h1 h2 h3
    refine lookup_none_of_keys fun p hp => ?_
    rcases hk p hp with h | h | h <;> rw [h] <;>
      first
      | exact fun he => h1 he.symm
      | exact fun he => h2 he.symm
      | exact fun he => h3 he.symm
  have heuP : List.lookup "eu" (mergedPrimitives cbr bnc eth) = none := by
    rw [lookup_merged_ne (by decide) (by decide)]
    exact hcbr _ (by decide) (by decide) (by decide)
  have hobP : List.lookup "ob" (mergedPrimitives cbr bnc eth) = none := by
    rw [lookup_merged_ne (by decide) (by decide)]
    exact hcbr _ (by decide) (by decide) (by decide)
  have hoeP : List.lookup "oe" (mergedPrimitives cbr bnc eth) = none := by
    rw [lookup_merged_ne (by decide) (by decide)]
    exact hcbr _ (by decide) (by decide) (by decide)
  suffices hmain :
      (List.lookup "eu" t =
        (match List.lookup "er" (mergedPrimitives cbr bnc eth),
            List.lookup "ur" (mergedPrimitives cbr bnc eth) with
          | some ev, some uv => some (decDiv ev uv)
          | _, _ => none)) ∧
      (List.lookup "ob" t =
        (match List.lookup "bnc" (mergedPrimitives cbr bnc eth),
            List.lookup "ur" (mergedPrimitives cbr bnc eth) with
          | some bv, some uv => some (decMul bv uv)
          | _, _ => none)) ∧
      (List.lookup "oe" t =
        (match List.lookup "eth" (mergedPrimitives cbr bnc eth),
            List.lookup "ur" (mergedPrimitives cbr bnc eth) with
          | some hv, some uv => some (decMul hv uv)
          | _, _ => none)) by
    obtain ⟨e1, e2, e3⟩ := hmain
    refine ⟨e1, e2, e3, ?_, ?_, ?_⟩
    · rw [e1]
      cases List.lookup "er" (mergedPrimitives cbr bnc eth) <;>
        cases List.lookup "ur" (mergedPrimitives cbr bnc eth) <;> simp
    · rw [e2]
      cases List.lookup "bnc" (mergedPrimitives cbr bnc eth) <;>
        cases List.lookup "ur" (mergedPrimitives cbr bnc eth) <;> simp
    · rw [e3]
      cases List.lookup "eth" (mergedPrimitives cbr bnc eth) <;>
        cases List.lookup "ur" (mergedPrimitives cbr bnc eth) <;> simp
  simp only [fetchAllPrices] at ht
  rcases her : List.lookup "er" (mergedPrimitives cbr bnc eth) with _ | ev <;>
    rw [her] at ht <;>
    rcases hur : List.lookup "ur" (mergedPrimitives cbr bnc eth) with _ | uv <;>
    rw [hur] at ht
  · -- er absent, ur absent
    have hteq : addOe (addOb (mergedPrimitives cbr bnc eth)) = t := Option.some.inj ht
    subst hteq
    refine ⟨?_, ?_, ?_⟩
    · rw [lookup_addOe_ne (by decide), lookup_addOb_ne (by decide)]
      exact heuP
    · rw [lookup_addOe_ne (by decide), lookup_ob_addOb]
      cases hbn : List.lookup "bnc" (mergedPrimitives cbr bnc eth) <;>
        rw [hur] <;> exact hobP
    · rw [lookup_oe_addOe, lookup_addOb_ne (by decide), lookup_addOb_ne (by decide), hur]
      cases hhe : List.lookup "eth" (mergedPrimitives cbr bnc eth) <;>
        rw [lookup_addOb_ne (by decide)] <;> exact hoeP
  · -- er absent, ur present
    have hteq : addOe (addOb (mergedPrimitives cbr bnc eth)) = t := Option.some.inj ht
    subst hteq
    refine ⟨?_, ?_, ?_⟩
    · rw [lookup_addOe_ne (by decide), lookup_addOb_ne (by decide)]
      exact heuP
    · rw [lookup_addOe_ne (by decide), lookup_ob_addOb, hur]
      cases hbn : List.lookup "bnc" (mergedPrimitives cbr bnc eth)
      · exact hobP
      · rfl
    · rw [lookup_oe_addOe, lookup_addOb_ne (by decide), lookup_addOb_ne (by decide), hur]
      cases hhe : List.lookup "eth" (mergedPrimitives cbr bnc eth)
      · rw [lookup_addOb_ne (by decide)]
        exact hoeP
      · rfl
  · -- er present, ur absent
    have hteq : addOe (addOb (mergedPrimitives cbr bnc eth)) = t := Option.some.inj ht
    subst hteq
    refine ⟨?_, ?_, ?_⟩
    · rw [lookup_addOe_ne (by decide), lookup_addOb_ne (by decide)]
      exact heuP
    · rw [lookup_addOe_ne (by decide), lookup_ob_addOb, hur]
      cases hbn : List.lookup "bnc" (mergedPrimitives cbr bnc eth) <;> exact hobP
    · rw [lookup_oe_addOe, lookup_addOb_ne (by decide), lookup_addOb_ne (by decide), hur]
      cases hhe : List.lookup "eth" (mergedPrimitives cbr bnc eth) <;>
        rw [lookup_addOb_ne (by decide)] <;> exact hoeP
  · -- er present, ur present
    have ht2 : (if uv = 0 then none
        else some (addOe (addOb (dinsert "eu" (decDiv ev uv)
          (mergedPrimitives cbr bnc eth))))) = some t := ht
    by_cases hz : uv = 0
    · rw [if_pos hz] at ht2
      cases ht2
    · rw [if_neg hz] at ht2
      have hteq : addOe (addOb (dinsert "eu" (decDiv ev uv)
          (mergedPrimitives cbr bnc eth))) = t := Option.some.inj ht2
      subst hteq
      have hbX : List.lookup "bnc" (dinsert "eu" (decDiv ev uv)
          (mergedPrimitives cbr bnc eth)) =
          List.lookup "bnc" (mergedPrimitives cbr bnc eth) :=
        lookup_dinsert_ne (by decide) _ _
      have huX : List.lookup "ur" (dinsert "eu" (decDiv ev uv)
          (mergedPrimitives cbr bnc eth)) = some uv := by
        rw [lookup_dinsert_ne (by decide)]
        exact hur
      have hethX : List.lookup "eth" (dinsert "eu" (decDiv ev uv)
          (mergedPrimitives cbr bnc eth)) =
          List.lookup "eth" (mergedPrimitives cbr bnc eth) :=
        lookup_dinsert_ne (by decide) _ _
      refine ⟨?_, ?_, ?_⟩
      · rw [lookup_addOe_ne (by decide), lookup_addOb_ne (by decide),
          lookup_dinsert_same]
      · rw [lookup_addOe_ne (by decide), lookup_ob_addOb, hbX, huX]
        cases hbn : List.lookup "bnc" (mergedPrimitives cbr bnc eth)
        · rw [lookup_dinsert_ne (by decide)]
          exact hobP
        · rfl
      · rw [lookup_oe_addOe, lookup_addOb_ne (by decide), lookup_addOb_ne (by decide),
          hethX, huX]
        cases hhe : List.lookup "eth" (mergedPrimitives cbr bnc eth)
        · rw [lookup_addOb_ne (by decide), lookup_dinsert_ne (by decide)]
          exact hoeP
        · rfl

/-- C5 witness: currency feed delivering "ur" and "er", one crypto ticker up,
one down — "eu" and "ob" are derived, "oe" is omitted. -/
theorem claim_C5_witness :
    List.lookup "eu"
        [("ob", (160 : ℚ)), ("eu", 9 / 8), ("bnc", 2), ("ur", 80), ("er", 90)] =
      some (decDiv 90 80) ∧
    List.lookup "ob"
        [("ob", (160 : ℚ)), ("eu", 9 / 8), ("bnc", 2), ("ur", 80), ("er", 90)] =
      some (decMul 2 80) ∧
    List.lookup "oe"
        [("ob", (160 : ℚ)), ("eu", 9 / 8), ("bnc", 2), ("ur", 80), ("er", 90)] =
      none := by
  have h := claim_C5 [("ur", (80 : ℚ)), ("er", 90)] (some 2) none
    (by
      intro p hp
      simp only [List.mem_cons, List.not_mem_nil, or_false] at hp
      rcases hp with rfl | rfl
      · exact Or.inl rfl
      · exact Or.inr (Or.inr rfl))
    [("ob", (160 : ℚ)), ("eu", 9 / 8), ("bnc", 2), ("ur", 80), ("er", 90)]
    (by decide)
  exact ⟨h.1.trans (by decide), h.2.1.trans (by decide), h.2.2.1.trans (by decide)⟩

/-! Helper lemmas: the currency-feed parse loop and emptiness. -/

theorem watchedCode_cases {c tok : String} (h : watchedCode c = some tok) :
    tok = "ur" ∨ tok = "cr" ∨ tok = "er" := by
  rw [watchedCode] at h
  split_ifs at h <;> cases h
  · exact Or.inl rfl
  · exact Or.inr (Or.inl rfl)
  · exact Or.inr (Or.inr rfl)

theorem fetchCbrGo_lookup_none {k : String}
    (h1 : k ≠ "ur") (h2 : k ≠ "cr") (h3 : k ≠ "er") :
    ∀ (rs : List CbrRec) (acc res : List (String × ℚ)),
      List.lookup k acc = none → fetchCbrGo rs acc = some res →
      List.lookup k res = none := by
  intro rs
  induction rs with
  | nil =>
    intro acc res hacc hgo
    cases hgo
    exact hacc
  | cons r rest ih =>
    intro acc res hacc hgo
    rw [fetchCbrGo] at hgo
    rcases hw : watchedCode r.charCode with _ | tok <;> rw [hw] at hgo
    · exact ih acc res hacc hgo
    · have hgo2 : (if r.nominal = 0 then none
          else fetchCbrGo rest (dinsert tok (decDiv r.value r.nominal) acc)) =
          some res := hgo
      by_cases hz : r.nominal = 0
      · rw [if_pos hz] at hgo2
        cases hgo2
      · rw [if_neg hz] at hgo2
        refine ih _ res ?_ hgo2
        have htok : k ≠ tok := by
          rcases watchedCode_cases hw with h | h | h <;> rw [h]
          · exact h1
          · exact h2
          · exact h3
        rw [lookup_dinsert_ne htok]
        exact hacc

theorem fetchCbr_lookup_none {k : String}
    (h1 : k ≠ "ur") (h2 : k ≠ "cr") (h3 : k ≠ "er") (o : Option (List CbrRec)) :
    List.lookup k (fetchCbrPrices o) = none := by
  cases o with
  | none => rfl
  | some rs =>
    rw [fetchCbrPrices]
    cases hgo : fetchCbrGo rs [] with
    | none => rfl
    | some res =>
      simpa using fetchCbrGo_lookup_none h1 h2 h3 rs [] res rfl hgo

theorem addOb_eq_nil_iff (t : List (String × ℚ)) : addOb t = [] ↔ t = [] := by
  rw [addOb]
  cases h1 : List.lookup "bnc" t <;> cases h2 : List.lookup "ur" t <;>
    simp only [dinsert] <;> try rfl
  constructor
  · intro h; cases h
  · intro h
    rw [h] at h1
    cases h1

theorem addOe_eq_nil_iff (t : List (String × ℚ)) : addOe t = [] ↔ t = [] := by
  rw [addOe]
  cases h1 : List.lookup "eth" t <;> cases h2 : List.lookup "ur" t <;>
    simp only [dinsert] <;> try rfl
  constructor
  · intro h; cases h
  · intro h
    rw [h] at h1
    cases h1

theorem merged_eq_nil_iff (cbr : List (String × ℚ)) (b e : Option ℚ) :
    mergedPrimitives cbr b e = [] ↔
      cbr = [] ∧ (b = none ∨ b = some 0) ∧ (e = none ∨ e = some 0) := by
  rw [mergedPrimitives.eq_def]
  cases b <;> cases e <;> dsimp only <;> (try split_ifs) <;>
    simp_all [dinsert]

theorem lookup_bnc_merged_none (cbr : List (String × ℚ)) (e : Option ℚ) :
    List.lookup "bnc" (mergedPrimitives cbr none e) = List.lookup "bnc" cbr := by
  rw [mergedPrimitives.eq_def]
  cases e <;> dsimp only <;> (try split_ifs) <;>
    simp [lookup_dinsert_ne (show "bnc" ≠ "eth" by decide)]

theorem lookup_eth_merged_none (cbr : List (String × ℚ)) (b : Option ℚ) :
    List.lookup "eth" (mergedPrimitives cbr b none) = List.lookup "eth" cbr := by
  rw [mergedPrimitives.eq_def]
  cases b <;> dsimp only <;> (try split_ifs) <;>
    simp [lookup_dinsert_ne (show "eth" ≠ "bnc" by decide)]

/-- C2 (amended): provided every "ur" rate delivered by the currency feed is
nonzero (the derived-rate division `er / ur` raises out of `fetch_all_prices`
otherwise), the aggregator returns a table for every combination of
sub-source outcomes; a failing sub-source only omits its tokens (and the
derived tokens needing them), and the table is empty exactly when the
currency feed contributed no tokens and each crypto ticker either failed or
returned price zero. -/
theorem claim_C2 (o : Option (List CbrRec)) (bnc eth : Option ℚ)
    (hur : ∀ v, List.lookup "ur" (fetchCbrPrices o) = some v → v ≠ 0) :
    fetchAllPrices (fetchCbrPrices o) bnc eth ≠ none ∧
    ∀ t, fetchAllPrices (fetchCbrPrices o) bnc eth = some t →
      ((o = none →
        List.lookup "ur" t = none ∧ List.lookup "cr" t = none ∧
        List.lookup "er" t = none ∧ List.lookup "eu" t = none ∧
        List.lookup "ob" t = none ∧ List.lookup "oe" t = none) ∧
      (bnc = none → List.lookup "bnc" t = none ∧ List.lookup "ob" t = none) ∧
      (eth = none → List.lookup "eth" t = none ∧ List.lookup "oe" t = none) ∧
      (t = [] ↔ fetchCbrPrices o = [] ∧ (bnc = none ∨ bnc = some 0) ∧
        (eth = none ∨ eth = some 0))) := by
  have heuC : List.lookup "eu" (fetchCbrPrices o) = none :=
    fetchCbr_lookup_none (by decide) (by decide) (by decide) o
  have hobC : List.lookup "ob" (fetchCbrPrices o) = none :=
    fetchCbr_lookup_none (by decide) (by decide) (by decide) o
  have hoeC : List.lookup "oe" (fetchCbrPrices o) = none :=
    fetchCbr_lookup_none (by decide) (by decide) (by decide) o
  have hbncC : List.lookup "bnc" (fetchCbrPrices o) = none :=
    fetchCbr_lookup_none (by decide) (by decide) (by decide) o
  have hethC : List.lookup "eth" (fetchCbrPrices o) = none :=
    fetchCbr_lookup_none (by decide) (by decide) (by decide) o
  have heuP : List.lookup "eu" (mergedPrimitives (fetchCbrPrices o) bnc eth) = none := by
    rw [lookup_merged_ne (by decide) (by decide)]
    exact heuC
  have hobP : List.lookup "ob" (mergedPrimitives (fetchCbrPrices o) bnc eth) = none := by
    rw [lookup_merged_ne (by decide) (by decide)]
    exact hobC
  have hoeP : List.lookup "oe" (mergedPrimitives (fetchCbrPrices o) bnc eth) = none := by
    rw [lookup_merged_ne (by decide) (by decide)]
    exact hoeC
  have hurP : ∀ v, List.lookup "ur" (mergedPrimitives (fetchCbrPrices o) bnc eth) =
      some v → v ≠ 0 := by
    intro v hv
    rw [lookup_merged_ne (by decide) (by decide)] at hv
    exact hur v hv
  constructor
  · intro hnone
    simp only [fetchAllPrices] at hnone
    rcases her : List.lookup "er" (mergedPrimitives (fetchCbrPrices o) bnc eth)
        with _ | ev <;> rw [her] at hnone <;>
      rcases hu : List.lookup "ur" (mergedPrimitives (fetchCbrPrices o) bnc eth)
        with _ | uv <;> rw [hu] at hnone
    · cases hnone
    · cases hnone
    · cases hnone
    · have hnone2 : (if uv = 0 then none
          else some (addOe (addOb (dinsert "eu" (decDiv ev uv)
            (mergedPrimitives (fetchCbrPrices o) bnc eth))))) = none := hnone
      by_cases hz : uv = 0
      · exact hurP uv hu hz
      · rw [if_neg hz] at hnone2
        cases hnone2
  · intro t ht
    simp only [fetchAllPrices] at ht
    have main : t = addOe (addOb (mergedPrimitives (fetchCbrPrices o) bnc eth)) ∨
        (∃ ev uv, List.lookup "er" (mergedPrimitives (fetchCbrPrices o) bnc eth) =
            some ev ∧
          List.lookup "ur" (mergedPrimitives (fetchCbrPrices o) bnc eth) = some uv ∧
          t = addOe (addOb (dinsert "eu" (decDiv ev uv)
            (mergedPrimitives (fetchCbrPrices o) bnc eth)))) := by
      rcases her : List.lookup "er" (mergedPrimitives (fetchCbrPrices o) bnc eth)
          with _ | ev <;> rw [her] at ht <;>
        rcases hu : List.lookup "ur" (mergedPrimitives (fetchCbrPrices o) bnc eth)
          with _ | uv <;> rw [hu] at ht
      · exact Or.inl (Option.some.inj ht).symm
      · exact Or.inl (Option.some.inj ht).symm
      · exact Or.inl (Option.some.inj ht).symm
      · have ht2 : (if uv = 0 then none
            else some (addOe (addOb (dinsert "eu" (decDiv ev uv)
              (mergedPrimitives (fetchCbrPrices o) bnc eth))))) = some t := ht
        by_cases hz : uv = 0
        · rw [if_pos hz] at ht2
          cases ht2
        · rw [if_neg hz] at ht2
          exact Or.inr ⟨ev, uv, rfl, rfl, (Option.some.inj ht2).symm⟩
    have hbase : ∀ k : String, k ≠ "eu" → k ≠ "ob" → k ≠ "oe" →
        List.lookup k t =
          List.lookup k (mergedPrimitives (fetchCbrPrices o) bnc eth) := by
      intro k h1 h2 h3
      rcases main with rfl | ⟨ev, uv, her, hu, rfl⟩
      · rw [lookup_addOe_ne h3, lookup_addOb_ne h2]
      · rw [lookup_addOe_ne h3, lookup_addOb_ne h2, lookup_dinsert_ne h1]
    have heut : List.lookup "eu" t = none ∨
        (List.lookup "ur" (mergedPrimitives (fetchCbrPrices o) bnc eth)).isSome := by
      rcases main with rfl | ⟨ev, uv, her, hu, rfl⟩
      · refine Or.inl ?_
        rw [lookup_addOe_ne (by decide), lookup_addOb_ne (by decide)]
        exact heuP
      · refine Or.inr ?_
        rw [hu]
        rfl
    have hobt : (List.lookup "bnc" (mergedPrimitives (fetchCbrPrices o) bnc eth) =
          none ∨
        List.lookup "ur" (mergedPrimitives (fetchCbrPrices o) bnc eth) = none) →
        List.lookup "ob" t = none := by
      intro hcase
      rcases main with rfl | ⟨ev, uv, her, hu, rfl⟩
      · rw [lookup_addOe_ne (by decide), lookup_ob_addOb]
        rcases h1 : List.lookup "bnc" (mergedPrimitives (fetchCbrPrices o) bnc eth)
            with _ | b
        · rcases h2 : List.lookup "ur" (mergedPrimitives (fetchCbrPrices o) bnc eth)
              with _ | u
          · exact hobP
          · exact hobP
        · rcases hcase with hc | hc
          · rw [h1] at hc
            cases hc
          · rw [hc]
            exact hobP
      · rcases hcase with hc | hc
        · rw [lookup_addOe_ne (by decide), lookup_ob_addOb,
            lookup_dinsert_ne (by decide), lookup_dinsert_ne (by decide), hc, hu]
          rw [lookup_dinsert_ne (by decide)]
          exact hobP
        · rw [hc] at hu
          cases hu
    have hoet : (List.lookup "eth" (mergedPrimitives (fetchCbrPrices o) bnc eth) =
          none ∨
        List.lookup "ur" (mergedPrimitives (fetchCbrPrices o) bnc eth) = none) →
        List.lookup "oe" t = none := by
      intro hcase
      rcases main with rfl | ⟨ev, uv, her, hu, rfl⟩
      · rw [lookup_oe_addOe, lookup_addOb_ne (by decide),
          lookup_addOb_ne (show ("ur" : String) ≠ "ob" by decide)]
        rcases h1 : List.lookup "eth" (mergedPrimitives (fetchCbrPrices o) bnc eth)
            with _ | v
        · rcases h2 : List.lookup "ur" (mergedPrimitives (fetchCbrPrices o) bnc eth)
              with _ | u
          · rw [lookup_addOb_ne (by decide)]
            exact hoeP
          · rw [lookup_addOb_ne (by decide)]
            exact hoeP
        · rcases hcase with hc | hc
          · rw [h1] at hc
            cases hc
          · rw [hc, lookup_addOb_ne (by decide)]
            exact hoeP
      · rcases hcase with hc | hc
        · rw [lookup_oe_addOe, lookup_addOb_ne (by decide),
            lookup_dinsert_ne (by decide), hc,
            lookup_addOb_ne (show ("ur" : String) ≠ "ob" by decide),
            lookup_dinsert_ne (by decide), hu]
          rw [lookup_addOb_ne (by decide), lookup_dinsert_ne (by decide)]
          exact hoeP
        · rw [hc] at hu
          cases hu
    refine ⟨?_, ?_, ?_, ?_⟩
    · intro ho
      subst ho
      have hnil : fetchCbrPrices (none : Option (List CbrRec)) = [] := rfl
      have hlk : ∀ k : String, k ≠ "bnc" → k ≠ "eth" →
          List.lookup k (mergedPrimitives (fetchCbrPrices
            (none : Option (List CbrRec))) bnc eth) = none := by
        intro k hkb hke
        rw [lookup_merged_ne hkb hke, hnil]
        rfl
      refine ⟨?_, ?_, ?_, ?_, ?_, ?_⟩
      · rw [hbase "ur" (by decide) (by decide) (by decide)]
        exact hlk "ur" (by decide) (by decide)
      · rw [hbase "cr" (by decide) (by decide) (by decide)]
        exact hlk "cr" (by decide) (by decide)
      · rw [hbase "er" (by decide) (by decide) (by decide)]
        exact hlk "er" (by decide) (by decide)
      · rcases heut with h | h
        · exact h
        · rw [hlk "ur" (by decide) (by decide)] at h
          cases h
      · exact hobt (Or.inr (hlk "ur" (by decide) (by decide)))
      · exact hoet (Or.inr (hlk "ur" (by decide) (by decide)))
    · intro hb
      subst hb
      have hbP : List.lookup "bnc" (mergedPrimitives (fetchCbrPrices o)
          none eth) = none := by
        rw [lookup_bnc_merged_none]
        exact hbncC
      exact ⟨by rw [hbase "bnc" (by decide) (by decide) (by decide)]; exact hbP,
        hobt (Or.inl hbP)⟩
    · intro he
      subst he
      have heP : List.lookup "eth" (mergedPrimitives (fetchCbrPrices o)
          bnc none) = none := by
        rw [lookup_eth_merged_none]
        exact hethC
      exact ⟨by rw [hbase "eth" (by decide) (by decide) (by decide)]; exact heP,
        hoet (Or.inl heP)⟩
    · rcases main with rfl | ⟨ev, uv, her, hu, rfl⟩
      · rw [addOe_eq_nil_iff, addOb_eq_nil_iff, merged_eq_nil_iff]
      · rw [addOe_eq_nil_iff, addOb_eq_nil_iff]
        constructor
        · intro h
          cases h
        · rintro ⟨hc, _, _⟩
          rw [lookup_merged_ne (by decide) (by decide), hc] at her
          cases her

/-- C2 witness: a currency feed delivering only a nonzero "ur" and two failed
crypto tickers. -/
theorem claim_C2_witness :
    fetchAllPrices (fetchCbrPrices (some [⟨"USD", 90, 1⟩])) none none ≠ none ∧
    List.lookup "bnc" [(("ur" : String), (90 : ℚ))] = none := by
  have hur : ∀ v, List.lookup "ur" (fetchCbrPrices (some [⟨"USD", 90, 1⟩])) =
      some v → v ≠ 0 := by
    intro v hv
    have h2 : (90 : ℚ) = v := Option.some.inj (show some (90 : ℚ) = some v from hv)
    rw [← h2]
    decide
  have h := claim_C2 (some [⟨"USD", 90, 1⟩]) none none hur
  exact ⟨h.1, ((h.2 [(("ur" : String), (90 : ℚ))] (by decide)).2.1 rfl).1⟩

/-- C2 counterexample to the claim as stated: first, a currency-feed response
carrying a zero "ur" rate together with a "er" rate makes `fetch_all_prices`
raise out of the derived-rate division (modelled as `none`), so the function
does not "never raise"; second, a crypto response whose price parses to
decimal zero with both other sources failed yields an empty table even though
not every source failed. -/
theorem claim_C2_counter :
    fetchAllPrices (fetchCbrPrices (some [⟨"USD", 0, 1⟩, ⟨"EUR", 90, 1⟩]))
        none none = none ∧
    fetchAllPrices (fetchCbrPrices none) (some 0) none = some [] ∧
    some (0 : ℚ) ≠ (none : Option ℚ) := by
  refine ⟨by decide, by decide, by decide⟩

/-- C1 (amended): the evaluation of the substituted-and-rewritten string is
performed in Python binary floating point (IEEE-754 binary64, 53-bit
significand, about 15.95 significant decimal digits), not in exact decimal
arithmetic; only the final conversion and rounding step is decimal.  On the
request `bnc*0 + 10000000000/3` the output is the binary64-rounded quotient
`rnd64 (10^10 / 3)` decimal-rounded to 8 digits — visibly drifted from the
exact quotient the spec-modelled decimal evaluator produces. -/
theorem claim_C1 :
    evaluateExpression [("bnc", (50000 : ℚ))] "bnc*0 + 10000000000/3" =
      fmtDec (halfEvenAt 8 (rnd64 ((10000000000 : ℚ) / 3))) 8 ∧
    rnd64 ((10000000000 : ℚ) / 3) ≠ (10000000000 : ℚ) / 3 ∧
    evaluateExpressionSpecDec [("bnc", (50000 : ℚ))] "bnc*0 + 10000000000/3" =
      fmtDec (halfEvenAt 8 ((10000000000 : ℚ) / 3)) 8 ∧
    evaluateExpression [("bnc", (50000 : ℚ))] "bnc*0 + 10000000000/3" =
      "3 333 333 333,33333349" ∧
    evaluateExpressionSpecDec [("bnc", (50000 : ℚ))] "bnc*0 + 10000000000/3" =
      "3 333 333 333,33333333" := by
  refine ⟨by decide, by decide, by decide, by decide, by decide⟩

/-- C1 counterexample to the claim as stated: the evaluator and the
spec-modelled exact-decimal evaluator disagree on a concrete request, so the
intermediate arithmetic is not exact decimal at 18 or more significant
digits. -/
theorem claim_C1_counter :
    evaluateExpression [("bnc", (50000 : ℚ))] "bnc*0 + 10000000000/3" ≠
      evaluateExpressionSpecDec [("bnc", (50000 : ℚ))] "bnc*0 + 10000000000/3" := by
  decide

end TgCalc
